import Mathlib

/-!
Verification development for the Symphonize chat application
(streaming relay, context assembly, attachment normalisation pipeline,
and the conversation-title database trigger).

The backend service bodies are embedded from the code excerpts in
src/README.md (`generate_response_stream`, `prepare_context`,
`convert_image_to_base64`, `extract_text_from_pdf`) and from
src/GPT/database/functions.sql (`auto_generate_conversation_title`).
Where the full backend source file is not in the repository snapshot,
the missing behaviour is modelled from the design document, as noted
on each definition.
-/

/-- One newline-delimited line of the model server's wire response, as seen
after `json.loads` is attempted on it: a blank/whitespace-only line, a line
that is not valid JSON, or a parsed object carrying the incremental
`message.content` fragment (`""` when the field is absent) and the `done`
completion flag (`false` when absent). -/
inductive SrvLine where
  | blank : SrvLine
  | malformed : SrvLine
  | chunk (content : String) (done : Bool) : SrvLine
deriving DecidableEq

/-- How the relay's read loop over the server stream ends: the completion
flag was seen (`completed`), the connection closed without it
(`exhausted`), or a line failed to parse (`failed`). -/
inductive StreamOutcome where
  | completed : StreamOutcome
  | exhausted : StreamOutcome
  | failed : StreamOutcome
deriving DecidableEq

/-- Modelled from the spec: the body of `generate_response_stream` in
`backend/app/services/ollama_service.py` is not in the repository snapshot;
the parse loop is embedded from the excerpt at src/README.md:543-551
(parse each line, `break` on a true `done` flag before yielding, yield the
content only when non-empty), and the skipping of blank/whitespace-only
lines follows the design document's tolerance requirement.  The returned
pair is the list of yielded fragments, in yield order, and the outcome of
the read loop. -/
def generate_response_stream : List SrvLine → List String × StreamOutcome
  | [] => ([], StreamOutcome.exhausted)
  | SrvLine.blank :: rest => generate_response_stream rest
  | SrvLine.malformed :: _ => ([], StreamOutcome.failed)
  | SrvLine.chunk c d :: rest =>
      if d then ([], StreamOutcome.completed)
      else
        let p := generate_response_stream rest
        (if c = "" then p.1 else c :: p.1, p.2)

/-- Whether a wire line is a parsed object whose `done` flag is true. -/
def isDoneLine : SrvLine → Bool
  | SrvLine.chunk _ d => d
  | _ => false

/-- The `message.content` field of a successfully parsed line. -/
def lineContent : SrvLine → Option String
  | SrvLine.chunk c _ => some c
  | _ => none

theorem generate_response_stream_nil :
    generate_response_stream [] = ([], StreamOutcome.exhausted) := rfl

theorem generate_response_stream_blank (rest : List SrvLine) :
    generate_response_stream (SrvLine.blank :: rest) = generate_response_stream rest := rfl

/-- C1: for every well-formed (all lines parse) server line sequence, the
fragments the relay forwards are exactly the non-empty content fields of
the lines before the first `done:true` object, one event per fragment in
arrival order; and whatever follows the first `done:true` object is never
read, so no fragment after it is ever forwarded. -/
theorem relay_forwards_exactly_in_order :
    (∀ lines : List SrvLine, (∀ l ∈ lines, l ≠ SrvLine.malformed) →
      (generate_response_stream lines).1 =
        ((lines.takeWhile (fun l => !isDoneLine l)).filterMap lineContent).filter
          (fun c => c ≠ ""))
    ∧ (∀ (pre : List SrvLine) (c : String) (rest : List SrvLine),
        (generate_response_stream (pre ++ SrvLine.chunk c true :: rest)).1 =
          (generate_response_stream (pre ++ [SrvLine.chunk c true])).1) := by
  constructor
  · intro lines hwf
    induction lines with
    | nil => rfl
    | cons l rest ih =>
      have hrest : ∀ l ∈ rest, l ≠ SrvLine.malformed := fun x hx => hwf x (List.mem_cons_of_mem _ hx)
      cases l with
      | blank =>
        simpa [generate_response_stream, List.takeWhile, isDoneLine, lineContent] using ih hrest
      | malformed => exact absurd rfl (hwf _ (List.mem_cons_self _ _))
      | chunk c d =>
        cases d with
        | true => simp [generate_response_stream, List.takeWhile, isDoneLine]
        | false =>
          by_cases hc : c = "" <;>
            simp [generate_response_stream, List.takeWhile, isDoneLine, lineContent, hc,
              ih hrest]
  · intro pre c rest
    induction pre with
    | nil => rfl
    | cons l pre ih =>
      cases l with
      | blank => simpa [generate_response_stream] using ih
      | malformed => rfl
      | chunk c' d' =>
        cases d' with
        | true => rfl
        | false => simp [generate_response_stream, ih]

/-- Splitting a character sequence on newline characters, as Python's
`str.split` with separator newline: the result always has one more element
than the number of newlines, the last element being the (possibly empty)
tail after the final newline. -/
def splitLines : List Char → List (List Char)
  | [] => [[]]
  | ch :: rest =>
      if ch = '\n' then [] :: splitLines rest
      else
        match splitLines rest with
        | [] => [[ch]]
        | l :: ls => (ch :: l) :: ls

/-- Modelled from the spec: the incremental line assembler sitting between
the network reads and the JSON parser (`response.aiter_lines()` inside
`generate_response_stream`, whose implementation is not in the repository
snapshot).  State is (completed lines so far, buffer of the current
partial line); each incoming character either closes the buffered line or
extends it. -/
def lineStep (st : List (List Char) × List Char) (ch : Char) :
    List (List Char) × List Char :=
  if ch = '\n' then (st.1 ++ [st.2], []) else (st.1, st.2 ++ [ch])

/-- Feed a sequence of network reads (each an arbitrary character block)
through the incremental line assembler, starting from the empty state. -/
def runReads (reads : List (List Char)) : List (List Char) × List Char :=
  reads.foldl (fun st r => r.foldl lineStep st) ([], [])

theorem splitLines_ne_nil (s : List Char) : splitLines s ≠ [] := by
  induction s with
  | nil => simp [splitLines]
  | cons ch rest ih =>
    by_cases h : ch = '\n'
    · simp [splitLines, h]
    · simp only [splitLines, if_neg h]
      cases hs : splitLines rest with
      | nil => simp
      | cons l ls => simp

/-- Prepend a partial line onto the first of a list of lines. -/
def consHeadLine (buf : List Char) : List (List Char) → List (List Char)
  | [] => [buf]
  | l :: ls => (buf ++ l) :: ls

theorem foldl_lineStep_eq (s : List Char) : ∀ (out : List (List Char)) (buf : List Char),
    (s.foldl lineStep (out, buf)).1 ++ [(s.foldl lineStep (out, buf)).2] =
      out ++ consHeadLine buf (splitLines s) := by
  induction s with
  | nil => intro out buf; simp [splitLines, consHeadLine]
  | cons ch rest ih =>
    intro out buf
    by_cases h : ch = '\n'
    · rw [List.foldl_cons]
      have : lineStep (out, buf) ch = (out ++ [buf], []) := by simp [lineStep, h]
      rw [this, ih]
      cases hs : splitLines rest with
      | nil => exact absurd hs (splitLines_ne_nil rest)
      | cons l ls => simp [splitLines, h, hs, consHeadLine]
    · rw [List.foldl_cons]
      have : lineStep (out, buf) ch = (out, buf ++ [ch]) := by simp [lineStep, h]
      rw [this, ih]
      simp only [splitLines, if_neg h]
      cases hs : splitLines rest with
      | nil => exact absurd hs (splitLines_ne_nil rest)
      | cons l ls => simp [consHeadLine]

/-- C4: the relay's handling of a server response is blank-line tolerant —
running the read loop on any line sequence gives the same fragments and
the same outcome (in particular no parse error) as on the sequence with
every blank/whitespace-only line removed — and the line assembler buffers
partial lines: the lines it completes plus its remaining buffer always
reconstruct the newline-split of the concatenated byte stream, so two read
sequences carrying the same bytes (however a line is split across reads)
produce identical lines. -/
theorem relay_blank_tolerant_and_buffered :
    (∀ lines : List SrvLine,
      generate_response_stream lines =
        generate_response_stream (lines.filter (fun l => decide (l ≠ SrvLine.blank))))
    ∧ (∀ reads : List (List Char),
        splitLines reads.flatten = (runReads reads).1 ++ [(runReads reads).2])
    ∧ (∀ r1 r2 : List (List Char), r1.flatten = r2.flatten → runReads r1 = runReads r2) := by
  have hjoin : ∀ reads : List (List Char),
      runReads reads = (reads.flatten).foldl lineStep ([], []) := by
    intro reads
    rw [runReads, List.foldl_flatten]
  refine ⟨?_, ?_, ?_⟩
  · intro lines
    induction lines with
    | nil => rfl
    | cons l rest ih =>
      cases l with
      | blank => simpa [generate_response_stream] using ih
      | malformed => simp [generate_response_stream, List.filter]
      | chunk c d =>
        cases d with
        | true => simp [generate_response_stream, List.filter]
        | false => simp [generate_response_stream, List.filter, ih]
  · intro reads
    rw [hjoin, foldl_lineStep_eq]
    cases hs : splitLines reads.flatten with
    | nil => exact absurd hs (splitLines_ne_nil _)
    | cons l ls => simp [consHeadLine]
  · intro r1 r2 h
    rw [hjoin, hjoin, h]

/-- Witness for `relay_blank_tolerant_and_buffered`: the byte stream
"ab\nc" chunked as ["a","b\nc"] and as ["ab","\n","c"] yields the same
assembler state. -/
theorem relay_blank_tolerant_and_buffered_witness :
    runReads [['a'], ['b', '\n', 'c']] = runReads [['a', 'b'], ['\n'], ['c']] :=
  relay_blank_tolerant_and_buffered.2.2 _ _ (by decide)

/-- One observable action of the per-turn request handler, in the order
the handler performs them. -/
inductive TurnAction where
  | saveUser (ok : Bool) : TurnAction
  | dispatch : TurnAction
  | emit (frag : String) : TurnAction
  | emitDone : TurnAction
  | emitError : TurnAction
  | saveAssistant (content : String) (model : String) : TurnAction
deriving DecidableEq

/-- Modelled from the spec: the `/chat/stream` endpoint handler
(`backend/app/api/chat.py` is not in the repository snapshot; the step
order is the one documented in the README sequence diagram,
src/README.md:155-167, and §4.3/§7 of the design).  The user turn is
written first; only if that write succeeds is the model call dispatched;
each forwarded fragment becomes one client event; on completion the
concatenated fragments are persisted as the assistant message with the
selected model identifier and a terminal done event is emitted; on a
mid-stream failure a terminal error event is emitted and nothing is
persisted for the assistant turn. -/
def turnTrace (saveOk : Bool) (modelId : String) (lines : List SrvLine) :
    List TurnAction :=
  if saveOk then
    TurnAction.saveUser true :: TurnAction.dispatch ::
      ((generate_response_stream lines).1.map TurnAction.emit ++
        match (generate_response_stream lines).2 with
        | StreamOutcome.completed =>
            [TurnAction.saveAssistant
               (String.join (generate_response_stream lines).1) modelId,
             TurnAction.emitDone]
        | _ => [TurnAction.emitError])
  else [TurnAction.saveUser false]

/-- The fragments a turn's handler emitted to the client, in order. -/
def emittedFrags (tr : List TurnAction) : List String :=
  tr.filterMap fun a =>
    match a with
    | TurnAction.emit s => some s
    | _ => none

/-- The assistant message (content, model) a turn persisted, if any. -/
def savedAssistant (tr : List TurnAction) : Option (String × String) :=
  (tr.filterMap fun a =>
    match a with
    | TurnAction.saveAssistant c m => some (c, m)
    | _ => none).head?

/-- C2: when a turn's stream completes with the done flag, the assistant
message persisted for the turn has content exactly the concatenation of
the fragments forwarded to the client, in forwarding order, and carries
the selected model identifier. -/
theorem assistant_persists_forwarded_concatenation
    (modelId : String) (lines : List SrvLine)
    (hdone : (generate_response_stream lines).2 = StreamOutcome.completed) :
    savedAssistant (turnTrace true modelId lines) =
      some (String.join (emittedFrags (turnTrace true modelId lines)), modelId) := by
  have h1 : ((fun a =>
      match a with
      | TurnAction.emit s => some s
      | _ => none) ∘ TurnAction.emit) = fun s : String => some s := rfl
  have h2 : ((fun a =>
      match a with
      | TurnAction.saveAssistant c m => some (c, m)
      | _ => none) ∘ TurnAction.emit) =
        fun _ : String => (none : Option (String × String)) := rfl
  simp only [turnTrace, if_pos, emittedFrags, savedAssistant, hdone]
  simp [List.filterMap_append, List.filterMap_map, h1, h2]

/-- Witness for `assistant_persists_forwarded_concatenation` at a stream
of two fragments followed by the completion flag. -/
theorem assistant_persists_forwarded_concatenation_witness :
    savedAssistant
        (turnTrace true "qwen3-vl:8b"
          [SrvLine.chunk "The" false, SrvLine.chunk " end." false,
           SrvLine.chunk "" true]) =
      some
        (String.join
          (emittedFrags
            (turnTrace true "qwen3-vl:8b"
              [SrvLine.chunk "The" false, SrvLine.chunk " end." false,
               SrvLine.chunk "" true])), "qwen3-vl:8b") :=
  assistant_persists_forwarded_concatenation "qwen3-vl:8b" _ (by decide)

/-- C3: in every turn, a dispatch of the outbound model call is preceded
in the handler's action trace by a successful write of the user message;
and when that write fails the turn aborts at once — the trace is the
single failed write, so no model call is dispatched, no fragment is
emitted, and no assistant message is persisted. -/
theorem user_write_precedes_dispatch :
    (∀ (saveOk : Bool) (modelId : String) (lines : List SrvLine) (i : ℕ),
      (turnTrace saveOk modelId lines).get? i = some TurnAction.dispatch →
        ∃ j, j < i ∧
          (turnTrace saveOk modelId lines).get? j = some (TurnAction.saveUser true))
    ∧ (∀ (modelId : String) (lines : List SrvLine),
        turnTrace false modelId lines = [TurnAction.saveUser false]
        ∧ TurnAction.dispatch ∉ turnTrace false modelId lines
        ∧ (∀ s, TurnAction.emit s ∉ turnTrace false modelId lines)
        ∧ (∀ c m, TurnAction.saveAssistant c m ∉ turnTrace false modelId lines)) := by
  constructor
  · intro saveOk modelId lines i hi
    cases saveOk with
    | false =>
      simp only [turnTrace, if_neg (Bool.false_ne_true)] at hi
      cases i with
      | zero => simp at hi
      | succ n => simp [List.get?] at hi
    | true =>
      refine ⟨0, ?_, ?_⟩
      · cases i with
        | zero =>
          simp only [turnTrace, if_pos] at hi
          simp at hi
        | succ n => exact Nat.succ_pos n
      · simp [turnTrace]
  · intro modelId lines
    refine ⟨rfl, ?_, ?_, ?_⟩ <;> simp [turnTrace]

/-- Witness for `user_write_precedes_dispatch`: in the trace of a turn on
an immediately-closed stream, the dispatch at index 1 is preceded by the
successful user write. -/
theorem user_write_precedes_dispatch_witness :
    (turnTrace true "m" []).get? 1 = some TurnAction.dispatch ∧
      ∃ j, j < 1 ∧ (turnTrace true "m" []).get? j = some (TurnAction.saveUser true) :=
  ⟨by decide, user_write_precedes_dispatch.1 true "m" [] 1 (by decide)⟩

/-- Witness for `relay_forwards_exactly_in_order` at a concrete stream:
a blank line, two content fragments (one empty), and a terminal
`done:true` object followed by a line that must never be read. -/
theorem relay_forwards_exactly_in_order_witness :
    (generate_response_stream
        [SrvLine.blank, SrvLine.chunk "The" false, SrvLine.chunk "" false,
         SrvLine.chunk " end." false, SrvLine.chunk "" true,
         SrvLine.chunk "never" false]).1 =
      (([SrvLine.blank, SrvLine.chunk "The" false, SrvLine.chunk "" false,
         SrvLine.chunk " end." false, SrvLine.chunk "" true,
         SrvLine.chunk "never" false].takeWhile (fun l => !isDoneLine l)).filterMap
            lineContent).filter (fun c => c ≠ "") :=
  relay_forwards_exactly_in_order.1 _ (by decide)

/-- One entry of the message list submitted to the model: a role tag and
textual content. -/
structure CtxMsg where
  role : String
  content : String
deriving DecidableEq

/-- The context builder from `backend/app/utils/context_manager.py`, embedded
from the excerpt at src/README.md:559-568: start from a single system-role
entry holding the system prompt, then append each historical message with
its role and content copied over. -/
def prepare_context (messages : List CtxMsg) (system_prompt : String) : List CtxMsg :=
  { role := "system", content := system_prompt } ::
    messages.map fun m => { role := m.role, content := m.content }

/-- C5: the assembled context is exactly one system-role entry holding the
fixed system prompt followed by the stored history in original order with
role and content unchanged, so its length is the history length plus one;
and assembly is deterministic — equal inputs give identical output. -/
theorem prepare_context_spec :
    ∀ (messages : List CtxMsg) (system_prompt : String),
      prepare_context messages system_prompt =
          { role := "system", content := system_prompt } :: messages
      ∧ (prepare_context messages system_prompt).length = messages.length + 1
      ∧ ∀ (messages2 : List CtxMsg) (sp2 : String),
          messages = messages2 → system_prompt = sp2 →
            prepare_context messages system_prompt = prepare_context messages2 sp2 := by
  intro messages system_prompt
  have hmap : (messages.map fun m => ({ role := m.role, content := m.content } : CtxMsg))
      = messages := by
    have : (fun m : CtxMsg => ({ role := m.role, content := m.content } : CtxMsg)) = id := rfl
    rw [this, List.map_id]
  refine ⟨?_, ?_, ?_⟩
  · rw [prepare_context, hmap]
  · simp [prepare_context]
  · intro messages2 sp2 h1 h2
    rw [h1, h2]

/-- Witness for `prepare_context_spec`: determinism at a concrete history
and prompt. -/
theorem prepare_context_spec_witness :
    prepare_context [{ role := "user", content := "hi" }] "You are an AI assistant" =
      prepare_context [{ role := "user", content := "hi" }] "You are an AI assistant" :=
  (prepare_context_spec _ _).2.2 _ _ rfl rfl

/-- A decoded PIL image as the normalizer sees it: pixel dimensions and
colour mode. -/
structure PILImage where
  width : ℕ
  height : ℕ
  mode : String
deriving DecidableEq

/-- The normalizer's successful output: the re-encoded image's dimensions
and mode, the declared media type, and the JPEG quality used. -/
structure ImagePayload where
  width : ℕ
  height : ℕ
  mode : String
  mediaType : String
  quality : ℕ
deriving DecidableEq

/-- Pillow's `round_aspect` helper: of the floor and the ceiling of the
exact aspect-preserving value, pick the one whose key is smaller (the
floor on ties, as Python's `min` does), never going below 1. -/
def round_aspect (f c : ℤ) (keyf keyc : ℚ) : ℤ :=
  max (if keyf ≤ keyc then f else c) 1

/-- Pillow's `Image.thumbnail((4000, 4000))` size computation (Pillow 10.x
`preserve_aspect_ratio`), over exact rationals: no resize when the image
already fits; otherwise the longer side is clamped to 4000 and the shorter
side is the floor or ceiling (whichever the key comparison picks, floored
at 1) of the exact aspect-preserving value.  Never upscales. -/
def pilThumbnail (w h : ℕ) : ℕ × ℕ :=
  if 4000 ≥ w ∧ 4000 ≥ h then (w, h)
  else
    let aspect : ℚ := (w : ℚ) / (h : ℚ)
    if aspect ≤ 1 then
      let number : ℚ := 4000 * aspect
      let f : ℤ := ⌊number⌋
      let c : ℤ := ⌈number⌉
      let x : ℤ := round_aspect f c |aspect - (f : ℚ) / 4000| |aspect - (c : ℚ) / 4000|
      (x.toNat, 4000)
    else
      let number : ℚ := 4000 / aspect
      let f : ℤ := ⌊number⌋
      let c : ℤ := ⌈number⌉
      let y : ℤ := round_aspect f c
        (if f = 0 then 0 else |aspect - 4000 / (f : ℚ)|)
        (if c = 0 then 0 else |aspect - 4000 / (c : ℚ)|)
      (4000, y.toNat)

theorem round_aspect_cases (f c : ℤ) (keyf keyc : ℚ) :
    round_aspect f c keyf keyc = max f 1 ∨ round_aspect f c keyf keyc = max c 1 := by
  rw [round_aspect]
  split
  · exact Or.inl rfl
  · exact Or.inr rfl

/-- The clamped rounding of a positive rational `q` stays within one of
`q`, is at least 1, and is at most any integer bound `n ≥ 1` with
`q ≤ n`. -/
theorem roundClamp_props (q : ℚ) (hq0 : 0 < q) (x : ℤ)
    (hx : x = max ⌊q⌋ 1 ∨ x = max ⌈q⌉ 1) :
    1 ≤ x ∧ (∀ n : ℕ, 1 ≤ n → q ≤ (n : ℚ) → x.toNat ≤ n) ∧
      |((x.toNat : ℤ) : ℚ) - q| < 1 := by
  have hfle : (⌊q⌋ : ℚ) ≤ q := Int.floor_le q
  have hflt : q < (⌊q⌋ : ℚ) + 1 := Int.lt_floor_add_one q
  have hcle : q ≤ (⌈q⌉ : ℚ) := Int.le_ceil q
  have hclt : (⌈q⌉ : ℚ) < q + 1 := Int.ceil_lt_add_one q
  have h1x : 1 ≤ x := by
    rcases hx with hx | hx <;> rw [hx] <;> exact le_max_right _ _
  have htn : ((x.toNat : ℤ) : ℚ) = ((x : ℤ) : ℚ) := by
    have := Int.toNat_of_nonneg (le_trans Int.one_nonneg h1x)
    exact_mod_cast congrArg (fun z : ℤ => (z : ℚ)) this
  have hceil1 : (1 : ℤ) ≤ ⌈q⌉ := by
    rw [Int.le_ceil_iff]
    push_cast
    linarith
  refine ⟨h1x, ?_, ?_⟩
  · intro n hn hqn
    have hcn : ⌈q⌉ ≤ (n : ℤ) := Int.ceil_le.mpr (by exact_mod_cast hqn)
    have hfc : ⌊q⌋ ≤ ⌈q⌉ := by
      have : (⌊q⌋ : ℚ) ≤ (⌈q⌉ : ℚ) := le_trans hfle hcle
      exact_mod_cast this
    have hxn : x ≤ (n : ℤ) := by
      rcases hx with hx | hx <;> rw [hx] <;>
        exact max_le (by omega) (by exact_mod_cast hn)
    rw [Int.toNat_le]
    exact hxn
  · rw [htn]
    rcases hx with hx | hx
    · by_cases h1f : (1 : ℤ) ≤ ⌊q⌋
      · rw [hx, max_eq_left h1f]
        rw [abs_lt]
        constructor <;> linarith
      · rw [hx, max_eq_right (by omega)]
        have hf0z : ⌊q⌋ ≤ 0 := by omega
        have hf0 : ((⌊q⌋ : ℤ) : ℚ) ≤ 0 := by exact_mod_cast hf0z
        rw [abs_lt]
        push_cast
        constructor <;> linarith
    · rw [hx, max_eq_left hceil1]
      rw [abs_lt]
      constructor <;> linarith

/-- Dimension bounds of the thumbnail computation when it actually
resizes: both output dimensions are at most 4000, neither exceeds its
input dimension, and the output cross-ratio is within one rounding step
of the input aspect ratio. -/
theorem pilThumbnail_bounds (w h : ℕ) (hw : 1 ≤ w) (hh : 1 ≤ h)
    (hbig : 4000 < w ∨ 4000 < h) :
    (pilThumbnail w h).1 ≤ 4000 ∧ (pilThumbnail w h).2 ≤ 4000 ∧
      (pilThumbnail w h).1 ≤ w ∧ (pilThumbnail w h).2 ≤ h ∧
      |((pilThumbnail w h).1 : ℤ) * (h : ℤ) - ((pilThumbnail w h).2 : ℤ) * (w : ℤ)| <
        (max w h : ℤ) := by
  have hguard : ¬ (4000 ≥ w ∧ 4000 ≥ h) := by omega
  have hw0 : (0 : ℚ) < (w : ℚ) := by exact_mod_cast Nat.lt_of_lt_of_le Nat.zero_lt_one hw
  have hh0 : (0 : ℚ) < (h : ℚ) := by exact_mod_cast Nat.lt_of_lt_of_le Nat.zero_lt_one hh
  unfold pilThumbnail
  rw [if_neg hguard]
  dsimp only
  by_cases hasp : ((w : ℚ) / (h : ℚ)) ≤ 1
  · rw [if_pos hasp]
    dsimp only
    have hwh : (w : ℚ) ≤ (h : ℚ) := (div_le_one hh0).mp hasp
    have hwhn : w ≤ h := by exact_mod_cast hwh
    have h4 : 4000 < h := by omega
    have h4q : (4000 : ℚ) < (h : ℚ) := by exact_mod_cast h4
    set q : ℚ := 4000 * ((w : ℚ) / (h : ℚ)) with hqdef
    have hq0 : 0 < q := by rw [hqdef]; positivity
    have hqh : q * (h : ℚ) = 4000 * (w : ℚ) := by
      rw [hqdef, mul_assoc, div_mul_cancel₀ _ (ne_of_gt hh0)]
    have hqw : q < (w : ℚ) := by
      have hstep : q * (h : ℚ) < (w : ℚ) * (h : ℚ) := by rw [hqh]; nlinarith
      exact lt_of_mul_lt_mul_right hstep (le_of_lt hh0)
    have hq4 : q ≤ 4000 := by rw [hqdef]; nlinarith
    obtain hc := round_aspect_cases ⌊q⌋ ⌈q⌉
      |(w : ℚ) / (h : ℚ) - (⌊q⌋ : ℚ) / 4000| |(w : ℚ) / (h : ℚ) - (⌈q⌉ : ℚ) / 4000|
    obtain ⟨h1x, hbnd, habs⟩ := roundClamp_props q hq0 _ hc
    refine ⟨hbnd 4000 (by omega) hq4, le_refl _, hbnd w hw (le_of_lt hqw), by omega, ?_⟩
    have hmax : (max (w : ℤ) (h : ℤ)) = (h : ℤ) :=
      max_eq_right (by exact_mod_cast hwhn)
    rw [hmax]
    set A : ℤ := (((round_aspect ⌊q⌋ ⌈q⌉
      |(w : ℚ) / (h : ℚ) - (⌊q⌋ : ℚ) / 4000|
      |(w : ℚ) / (h : ℚ) - (⌈q⌉ : ℚ) / 4000|).toNat : ℕ) : ℤ) with hAdef
    have hqq : |(A : ℚ) * (h : ℚ) - 4000 * (w : ℚ)| < (h : ℚ) := by
      have h1 : (A : ℚ) * (h : ℚ) - 4000 * (w : ℚ) = ((A : ℚ) - q) * (h : ℚ) := by
        rw [sub_mul, hqh]
      have h2 : ((A : ℤ) : ℚ) = ((((round_aspect ⌊q⌋ ⌈q⌉
          |(w : ℚ) / (h : ℚ) - (⌊q⌋ : ℚ) / 4000|
          |(w : ℚ) / (h : ℚ) - (⌈q⌉ : ℚ) / 4000|).toNat : ℕ) : ℤ) : ℚ) := by
        rw [hAdef]
      rw [h1, abs_mul, abs_of_pos hh0]
      calc |(A : ℚ) - q| * (h : ℚ) < 1 * (h : ℚ) := by
            refine mul_lt_mul_of_pos_right ?_ hh0
            rw [h2]
            exact habs
        _ = (h : ℚ) := one_mul _
    have hz : |A * (h : ℤ) - 4000 * (w : ℤ)| < (h : ℤ) := by exact_mod_cast hqq
    exact_mod_cast hz
  · rw [if_neg hasp]
    dsimp only
    have hwh : (h : ℚ) < (w : ℚ) := by
      have h1 : (1 : ℚ) < (w : ℚ) / (h : ℚ) := lt_of_not_le hasp
      exact (one_lt_div hh0).mp h1
    have hwhn : h < w := by exact_mod_cast hwh
    have h4 : 4000 < w := by omega
    have h4q : (4000 : ℚ) < (w : ℚ) := by exact_mod_cast h4
    set q : ℚ := 4000 / ((w : ℚ) / (h : ℚ)) with hqdef
    have hqrw : q = 4000 * (h : ℚ) / (w : ℚ) := by
      rw [hqdef, div_div_eq_mul_div]
    have hq0 : 0 < q := by rw [hqrw]; positivity
    have hqh : q * (w : ℚ) = 4000 * (h : ℚ) := by
      rw [hqrw, div_mul_cancel₀ _ (ne_of_gt hw0)]
    have hqw : q < (h : ℚ) := by
      have hstep : q * (w : ℚ) < (h : ℚ) * (w : ℚ) := by rw [hqh]; nlinarith
      exact lt_of_mul_lt_mul_right hstep (le_of_lt hw0)
    have hq4 : q ≤ 4000 := by rw [hqrw, div_le_iff₀ hw0]; nlinarith
    obtain hc := round_aspect_cases ⌊q⌋ ⌈q⌉
      (if ⌊q⌋ = 0 then 0 else |(w : ℚ) / (h : ℚ) - 4000 / ((⌊q⌋ : ℤ) : ℚ)|)
      (if ⌈q⌉ = 0 then 0 else |(w : ℚ) / (h : ℚ) - 4000 / ((⌈q⌉ : ℤ) : ℚ)|)
    obtain ⟨h1x, hbnd, habs⟩ := roundClamp_props q hq0 _ hc
    refine ⟨le_refl _, hbnd 4000 (by omega) hq4, by omega, hbnd h hh (le_of_lt hqw), ?_⟩
    have hmax : (max (w : ℤ) (h : ℤ)) = (w : ℤ) :=
      max_eq_left (by exact_mod_cast le_of_lt hwhn)
    rw [hmax]
    set A : ℤ := (((round_aspect ⌊q⌋ ⌈q⌉
      (if ⌊q⌋ = 0 then 0 else |(w : ℚ) / (h : ℚ) - 4000 / ((⌊q⌋ : ℤ) : ℚ)|)
      (if ⌈q⌉ = 0 then 0 else |(w : ℚ) / (h : ℚ) - 4000 / ((⌈q⌉ : ℤ) : ℚ)|)).toNat : ℕ) : ℤ)
      with hAdef
    have hqq : |(A : ℚ) * (w : ℚ) - 4000 * (h : ℚ)| < (w : ℚ) := by
      have h1 : (A : ℚ) * (w : ℚ) - 4000 * (h : ℚ) = ((A : ℚ) - q) * (w : ℚ) := by
        rw [sub_mul, hqh]
      have h2 : ((A : ℤ) : ℚ) = ((((round_aspect ⌊q⌋ ⌈q⌉
          (if ⌊q⌋ = 0 then 0 else |(w : ℚ) / (h : ℚ) - 4000 / ((⌊q⌋ : ℤ) : ℚ)|)
          (if ⌈q⌉ = 0 then 0 else |(w : ℚ) / (h : ℚ) - 4000 / ((⌈q⌉ : ℤ) : ℚ)|)).toNat :
            ℕ) : ℤ) : ℚ) := by
        rw [hAdef]
      rw [h1, abs_mul, abs_of_pos hw0]
      calc |(A : ℚ) - q| * (w : ℚ) < 1 * (w : ℚ) := by
            refine mul_lt_mul_of_pos_right ?_ hw0
            rw [h2]
            exact habs
        _ = (w : ℚ) := one_mul _
    have hz : |A * (w : ℤ) - 4000 * (h : ℤ)| < (w : ℤ) := by exact_mod_cast hqq
    have hz2 : |4000 * (h : ℤ) - A * (w : ℤ)| < (w : ℤ) := by
      rw [abs_sub_comm]
      exact hz
    exact_mod_cast hz2


/-- `convert_image_to_base64` from `backend/app/services/file_service.py`,
embedded from the excerpt at src/README.md:259-287: reject if either
dimension is below 50; `thumbnail((4000, 4000))` if either dimension
exceeds 4000; convert the mode to RGB only when it is neither RGB nor
RGBA; then save as a quality-95 JPEG — which, per Pillow's JPEG encoder,
raises for an RGBA-mode image ("cannot write mode RGBA as JPEG") — and
return the payload tagged with its media type. -/
def convert_image_to_base64 (img : PILImage) : Except String ImagePayload :=
  if img.width < 50 ∨ img.height < 50 then Except.error "Image too small"
  else
    let resized :=
      if img.width > 4000 ∨ img.height > 4000 then
        ((pilThumbnail img.width img.height).1, (pilThumbnail img.width img.height).2)
      else (img.width, img.height)
    let mode := if img.mode = "RGB" ∨ img.mode = "RGBA" then img.mode else "RGB"
    if mode = "RGBA" then Except.error "cannot write mode RGBA as JPEG"
    else Except.ok
      { width := resized.1, height := resized.2, mode := mode,
        mediaType := "image/jpeg", quality := 95 }

/-- C7 (code evaluated at the failing input): an RGBA image of valid
dimensions is not converted to RGB — the code keeps RGB and RGBA modes
as they are — and the quality-95 JPEG re-encode of an RGBA image then
fails, so no base64 payload is produced. -/
theorem rgba_image_not_converted_jpeg_fails :
    convert_image_to_base64 { width := 3000, height := 2000, mode := "RGBA" } =
      Except.error "cannot write mode RGBA as JPEG" := rfl

/-- C6: the normalizer's dimension behaviour — an image with both
dimensions at least 50 is never rejected by the dimension validation; an
image with either dimension below 50 always fails it; and every accepted
output has both dimensions (hence the longer one) at most 4000, is never
upscaled in either dimension, and any downscale keeps the output
cross-ratio within one rounding step of the input aspect ratio. -/
theorem normalizer_dimension_spec :
    ∀ img : PILImage,
      ((50 ≤ img.width ∧ 50 ≤ img.height) →
        convert_image_to_base64 img ≠ Except.error "Image too small")
      ∧ ((img.width < 50 ∨ img.height < 50) →
        convert_image_to_base64 img = Except.error "Image too small")
      ∧ (∀ r : ImagePayload, convert_image_to_base64 img = Except.ok r →
          r.width ≤ 4000 ∧ r.height ≤ 4000 ∧
            r.width ≤ img.width ∧ r.height ≤ img.height ∧
            ((r.width, r.height) ≠ (img.width, img.height) →
              |(r.width : ℤ) * (img.height : ℤ) - (r.height : ℤ) * (img.width : ℤ)| <
                max (img.width : ℤ) (img.height : ℤ))) := by
  intro img
  refine ⟨?_, ?_, ?_⟩
  · rintro ⟨h1, h2⟩
    have hne : ¬ (img.width < 50 ∨ img.height < 50) := by omega
    rw [convert_image_to_base64, if_neg hne]
    dsimp only
    by_cases hmode :
        (if img.mode = "RGB" ∨ img.mode = "RGBA" then img.mode else "RGB") = "RGBA"
    · rw [if_pos hmode]
      intro hx
      injection hx with hx
      exact absurd hx (by decide)
    · rw [if_neg hmode]
      intro hx
      exact Except.noConfusion hx
  · intro hlt
    rw [convert_image_to_base64, if_pos hlt]
  · intro r hr
    by_cases hlt : img.width < 50 ∨ img.height < 50
    · rw [convert_image_to_base64, if_pos hlt] at hr
      exact Except.noConfusion hr
    · rw [convert_image_to_base64, if_neg hlt] at hr
      dsimp only at hr
      by_cases hmode :
          (if img.mode = "RGB" ∨ img.mode = "RGBA" then img.mode else "RGB") = "RGBA"
      · rw [if_pos hmode] at hr
        exact Except.noConfusion hr
      · rw [if_neg hmode] at hr
        injection hr with hr
        by_cases hbig : img.width > 4000 ∨ img.height > 4000
        · rw [if_pos hbig] at hr
          obtain ⟨b1, b2, b3, b4, b5⟩ :=
            pilThumbnail_bounds img.width img.height (by omega) (by omega) hbig
          have hrw : r.width = (pilThumbnail img.width img.height).1 := by
            rw [← hr]
          have hrh : r.height = (pilThumbnail img.width img.height).2 := by
            rw [← hr]
          rw [hrw, hrh]
          exact ⟨b1, b2, b3, b4, fun _ => b5⟩
        · rw [if_neg hbig] at hr
          have hrw : r.width = img.width := by rw [← hr]
          have hrh : r.height = img.height := by rw [← hr]
          rw [hrw, hrh]
          refine ⟨by omega, by omega, le_refl _, le_refl _, ?_⟩
          intro hne
          exact absurd rfl hne

/-- Witness for `normalizer_dimension_spec`: a 100 by 80 RGB image passes
the dimension validation and is accepted unchanged, and a 40 by 200 image
fails it. -/
theorem normalizer_dimension_spec_witness :
    convert_image_to_base64 { width := 100, height := 80, mode := "RGB" } ≠
        Except.error "Image too small"
    ∧ convert_image_to_base64 { width := 40, height := 200, mode := "RGB" } =
        Except.error "Image too small"
    ∧ ((100 : ℕ) ≤ 4000 ∧ (80 : ℕ) ≤ 4000 ∧ (100 : ℕ) ≤ 100 ∧ (80 : ℕ) ≤ 80 ∧
        (((100 : ℕ), (80 : ℕ)) ≠ ((100 : ℕ), (80 : ℕ)) →
          |((100 : ℕ) : ℤ) * ((80 : ℕ) : ℤ) - ((80 : ℕ) : ℤ) * ((100 : ℕ) : ℤ)| <
            max (((100 : ℕ)) : ℤ) (((80 : ℕ)) : ℤ))) :=
  ⟨(normalizer_dimension_spec { width := 100, height := 80, mode := "RGB" }).1
      ⟨by decide, by decide⟩,
    (normalizer_dimension_spec { width := 40, height := 200, mode := "RGB" }).2.1
      (by decide),
    (normalizer_dimension_spec { width := 100, height := 80, mode := "RGB" }).2.2
      { width := 100, height := 80, mode := "RGB",
        mediaType := "image/jpeg", quality := 95 }
      rfl⟩

/-- Python's `str.strip` whitespace set. -/
def pyWhitespace (ch : Char) : Bool :=
  ch = ' ' || ch = '\t' || ch = '\n' || ch = '\r' || ch = '\x0B' || ch = '\x0C'

/-- Leading-whitespace removal, as the left half of Python's `str.strip`. -/
def lstripChars (s : List Char) : List Char := s.dropWhile pyWhitespace

/-- Trailing-whitespace removal, as the right half of Python's `str.strip`. -/
def rstripChars (s : List Char) : List Char :=
  (s.reverse.dropWhile pyWhitespace).reverse

/-- Python's `str.strip`. -/
def stripChars (s : List Char) : List Char := rstripChars (lstripChars s)

/-- The page-boundary marker `--- Page k ---`. -/
def pageMarker (k : ℕ) : List Char :=
  "--- Page ".data ++ (toString k).data ++ " ---".data

/-- The text block the extraction loop appends for page `k`:
`"\n--- Page k ---\n"` followed by the page's extracted text. -/
def pdfBlock (k : ℕ) (page : List Char) : List Char :=
  '\n' :: (pageMarker k ++ '\n' :: page)

/-- The accumulated text of the page loop, starting at page number `k`. -/
def pdfPagesText : ℕ → List (List Char) → List Char
  | _, [] => []
  | k, p :: rest => pdfBlock k p ++ pdfPagesText (k + 1) rest

/-- `extract_text_from_pdf` from `backend/app/services/file_service.py`,
embedded from the excerpt at src/README.md:293-303: each page contributes
a `"\n--- Page N ---\n"` header followed by whatever text PyPDF2 extracts
from it (the empty string when none), and the concatenation is finally
`strip()`ped.  A page's extracted text is modelled as its character
list. -/
def extract_text_from_pdf (pages : List (List Char)) : List Char :=
  stripChars (pdfPagesText 1 pages)

/-- The fixed head shared by all page markers. -/
def markerHead : List Char := "--- Page ".data

/-- Whether a line is a page-boundary marker line (starts with the marker
head). -/
def isMarkerLine (l : List Char) : Bool := markerHead.isPrefixOf l

/-- The marker lines of a text, in order of appearance. -/
def markerLines (s : List Char) : List (List Char) :=
  (splitLines s).filter isMarkerLine

theorem digitChar_ne_newline : ∀ n : ℕ, Nat.digitChar n ≠ '\n' := by
  intro n
  by_cases h15 : n ≤ 15
  · interval_cases n <;> decide
  · have hstar : Nat.digitChar n = '*' := by
      unfold Nat.digitChar
      repeat rw [if_neg (Nat.ne_of_gt (by omega))]
    rw [hstar]
    decide

theorem toDigitsCore_ne_newline (b : ℕ) :
    ∀ (fuel n : ℕ) (ds : List Char), (∀ ch ∈ ds, ch ≠ '\n') →
      ∀ ch ∈ Nat.toDigitsCore b fuel n ds, ch ≠ '\n' := by
  intro fuel
  induction fuel with
  | zero => intro n ds h; simpa [Nat.toDigitsCore] using h
  | succ f ih =>
    intro n ds h ch hch
    rw [Nat.toDigitsCore] at hch
    split at hch
    · rcases List.mem_cons.mp hch with h1 | h1
      · rw [h1]; exact digitChar_ne_newline _
      · exact h ch h1
    · refine ih _ _ ?_ ch hch
      intro x hx
      rcases List.mem_cons.mp hx with h1 | h1
      · rw [h1]; exact digitChar_ne_newline _
      · exact h x h1

theorem natToString_ne_newline (k : ℕ) : ∀ ch ∈ (toString k).data, ch ≠ '\n' := by
  have h : (toString k).data = Nat.toDigitsCore 10 (k + 1) k [] := rfl
  rw [h]
  exact toDigitsCore_ne_newline 10 (k + 1) k [] (by simp)

theorem pageMarker_ne_newline (k : ℕ) : ∀ ch ∈ pageMarker k, ch ≠ '\n' := by
  intro ch hch
  rw [pageMarker] at hch
  rcases List.mem_append.mp hch with h1 | h1
  · rcases List.mem_append.mp h1 with h2 | h2
    · intro he
      rw [he] at h2
      revert h2
      decide
    · exact natToString_ne_newline k ch h2
  · intro he
    rw [he] at h1
    revert h1
    decide

theorem pageMarker_head (k : ℕ) :
    ∃ t, pageMarker k = '-' :: t :=
  ⟨"-- Page ".data ++ (toString k).data ++ " ---".data, rfl⟩

theorem pageMarker_last (k : ℕ) :
    ∃ u, pageMarker k = u ++ ['-'] := by
  refine ⟨"--- Page ".data ++ (toString k).data ++ " --".data, ?_⟩
  rw [pageMarker]
  simp [List.append_assoc]

theorem isPrefixOf_self_append (l t : List Char) : l.isPrefixOf (l ++ t) = true := by
  induction l with
  | nil => simp [List.isPrefixOf]
  | cons a l ih => simp [List.isPrefixOf, ih]

theorem isMarkerLine_pageMarker (k : ℕ) : isMarkerLine (pageMarker k) = true := by
  rw [isMarkerLine, pageMarker, markerHead, List.append_assoc]
  exact isPrefixOf_self_append _ _

theorem isMarkerLine_nil : isMarkerLine [] = false := by decide

theorem splitLines_cons_newline (s : List Char) :
    splitLines ('\n' :: s) = [] :: splitLines s := by
  simp [splitLines]

theorem splitLines_cons_ne (ch : Char) (rest : List Char) (h : ¬ ch = '\n')
    (l : List Char) (ls : List (List Char)) (hrest : splitLines rest = l :: ls) :
    splitLines (ch :: rest) = (ch :: l) :: ls := by
  simp only [splitLines, if_neg h, hrest]

theorem splitLines_dest (s : List Char) : ∃ l ls, splitLines s = l :: ls := by
  cases hs : splitLines s with
  | nil => exact absurd hs (splitLines_ne_nil s)
  | cons l ls => exact ⟨l, ls, rfl⟩

theorem splitLines_append_newline (a b : List Char) :
    splitLines (a ++ '\n' :: b) = splitLines a ++ splitLines b := by
  induction a with
  | nil => simp [splitLines]
  | cons ch a ih =>
    by_cases h : ch = '\n'
    · subst h
      rw [List.cons_append, splitLines_cons_newline, splitLines_cons_newline, ih]
      rfl
    · obtain ⟨l, ls, hs⟩ := splitLines_dest a
      have h1 : splitLines (a ++ '\n' :: b) = l :: (ls ++ splitLines b) := by
        rw [ih, hs]
        rfl
      rw [List.cons_append, splitLines_cons_ne ch _ h _ _ h1,
        splitLines_cons_ne ch a h l ls hs]
      rfl

theorem splitLines_no_newline (a : List Char) (h : ∀ ch ∈ a, ch ≠ '\n') :
    splitLines a = [a] := by
  induction a with
  | nil => rfl
  | cons ch a ih =>
    have hch : ch ≠ '\n' := h ch (List.mem_cons_self _ _)
    have hrest : splitLines a = [a] :=
      ih fun x hx => h x (List.mem_cons_of_mem _ hx)
    rw [splitLines_cons_ne ch a hch a [] hrest]

theorem splitLines_marker_newline (k : ℕ) (b : List Char) :
    splitLines (pageMarker k ++ '\n' :: b) = pageMarker k :: splitLines b := by
  rw [splitLines_append_newline, splitLines_no_newline _ (pageMarker_ne_newline k)]
  rfl

/-- Join the line decompositions of two concatenated texts: the last line
of the first glues onto the first line of the second. -/
def glueLines : List (List Char) → List (List Char) → List (List Char)
  | [], ys => ys
  | [x], [] => [x]
  | [x], y :: ys => (x ++ y) :: ys
  | x :: xs, ys => x :: glueLines xs ys

theorem glueLines_single (x y : List Char) (ys : List (List Char)) :
    glueLines [x] (y :: ys) = (x ++ y) :: ys := rfl

theorem glueLines_cons2 (x x2 : List Char) (xs2 ys : List (List Char)) :
    glueLines (x :: x2 :: xs2) ys = x :: glueLines (x2 :: xs2) ys := rfl

theorem splitLines_append (t r : List Char) :
    splitLines (t ++ r) = glueLines (splitLines t) (splitLines r) := by
  induction t with
  | nil =>
    obtain ⟨y, ys, hr⟩ := splitLines_dest r
    rw [List.nil_append, hr]
    rfl
  | cons ch t ih =>
    obtain ⟨u, us, ht⟩ := splitLines_dest t
    obtain ⟨v, vs, hr⟩ := splitLines_dest r
    by_cases h : ch = '\n'
    · subst h
      rw [List.cons_append, splitLines_cons_newline, splitLines_cons_newline, ih, ht, hr]
      rfl
    · cases us with
      | nil =>
        have h2 : splitLines (t ++ r) = (u ++ v) :: vs := by
          rw [ih, ht, hr]
          rfl
        rw [List.cons_append, splitLines_cons_ne ch _ h _ _ h2,
          splitLines_cons_ne ch t h u [] ht, hr, glueLines_single]
        rfl
      | cons u2 us2 =>
        have h2 : splitLines (t ++ r) = u :: glueLines (u2 :: us2) (v :: vs) := by
          rw [ih, ht, hr, glueLines_cons2]
        rw [List.cons_append, splitLines_cons_ne ch _ h _ _ h2,
          splitLines_cons_ne ch t h u (u2 :: us2) ht, hr, glueLines_cons2]

theorem isPrefixOf_refl (l : List Char) : l.isPrefixOf l = true := by
  induction l with
  | nil => rfl
  | cons a l ih => simp [List.isPrefixOf, ih]

theorem glueLines_mem_prefix (xs ys : List (List Char)) (hxs : xs ≠ [])
    (hys : ys ≠ []) :
    ∀ l ∈ xs, ∃ l2 ∈ glueLines xs ys, l.isPrefixOf l2 = true := by
  induction xs with
  | nil => intro l hl; exact absurd rfl hxs
  | cons x xs ih =>
    intro l hl
    cases xs with
    | nil =>
      cases ys with
      | nil => exact absurd rfl hys
      | cons y ys2 =>
        have h : l = x := List.mem_singleton.mp hl
        refine ⟨x ++ y, ?_, ?_⟩
        · rw [glueLines_single]
          exact List.mem_cons_self _ _
        · rw [h]
          exact isPrefixOf_self_append _ _
    | cons x2 xs2 =>
      rcases List.mem_cons.mp hl with h | h
      · refine ⟨x, ?_, ?_⟩
        · rw [glueLines_cons2]
          exact List.mem_cons_self _ _
        · rw [h]
          exact isPrefixOf_refl x
      · obtain ⟨l2, hl2, hp⟩ := ih (by simp) l h
        refine ⟨l2, ?_, hp⟩
        rw [glueLines_cons2]
        exact List.mem_cons_of_mem _ hl2

theorem isPrefixOf_trans {a b c : List Char} (h1 : a.isPrefixOf b = true)
    (h2 : b.isPrefixOf c = true) : a.isPrefixOf c = true := by
  rw [List.isPrefixOf_iff_prefix] at h1 h2 ⊢
  exact h1.trans h2

/-- Every line of a prefix of a text is itself a prefix of some line of
the text, so a text with no marker lines has none in any prefix. -/
theorem markerFree_of_prefix (t r : List Char)
    (h : ∀ l ∈ splitLines (t ++ r), isMarkerLine l = false) :
    ∀ l ∈ splitLines t, isMarkerLine l = false := by
  intro l hl
  obtain ⟨l2, hl2, hp⟩ := glueLines_mem_prefix (splitLines t) (splitLines r)
    (splitLines_ne_nil t) (splitLines_ne_nil r) l hl
  rw [← splitLines_append] at hl2
  by_contra hcon
  have hml : isMarkerLine l = true := by
    cases hm : isMarkerLine l with
    | false => exact absurd hm hcon
    | true => rfl
  have : isMarkerLine l2 = true := by
    rw [isMarkerLine] at hml ⊢
    exact isPrefixOf_trans hml hp
  rw [h l2 hl2] at this
  exact Bool.noConfusion this

theorem dropWhile_append (p : Char → Bool) (u v : List Char) :
    (u ++ v).dropWhile p =
      if u.dropWhile p = [] then v.dropWhile p else u.dropWhile p ++ v := by
  induction u with
  | nil => simp
  | cons a u ih =>
    by_cases h : p a
    · simpa [List.dropWhile_cons, h] using ih
    · simp [List.dropWhile_cons, h]

theorem dropWhile_suffix_decomp (p : Char → Bool) (l : List Char) :
    ∃ t, t ++ l.dropWhile p = l := by
  induction l with
  | nil => exact ⟨[], rfl⟩
  | cons a l ih =>
    by_cases h : p a
    · obtain ⟨t, ht⟩ := ih
      exact ⟨a :: t, by simp [List.dropWhile_cons, h, ht]⟩
    · exact ⟨[], by simp [List.dropWhile_cons, h]⟩

theorem rstripChars_prefix_decomp (s : List Char) :
    ∃ t, rstripChars s ++ t = s := by
  obtain ⟨t, ht⟩ := dropWhile_suffix_decomp pyWhitespace s.reverse
  refine ⟨t.reverse, ?_⟩
  have := congrArg List.reverse ht
  simpa [rstripChars] using this

theorem rstripChars_append_last (u : List Char) (c : Char)
    (hc : pyWhitespace c = false) (b : List Char) :
    rstripChars ((u ++ [c]) ++ b) = (u ++ [c]) ++ rstripChars b := by
  rw [rstripChars, List.reverse_append]
  have hrev : (u ++ [c]).reverse = c :: u.reverse := by simp
  rw [hrev, dropWhile_append]
  by_cases hb : b.reverse.dropWhile pyWhitespace = []
  · rw [if_pos hb]
    rw [List.dropWhile_cons, hc]
    simp [rstripChars, hb]
  · rw [if_neg hb]
    simp [rstripChars]

theorem rstripChars_append_of_ne_nil (a b : List Char)
    (hb : rstripChars b ≠ []) :
    rstripChars (a ++ b) = a ++ rstripChars b := by
  have hb2 : b.reverse.dropWhile pyWhitespace ≠ [] := by
    intro hcon
    rw [rstripChars, hcon] at hb
    exact hb rfl
  rw [rstripChars, List.reverse_append, dropWhile_append, if_neg hb2]
  simp [rstripChars]

theorem rstripChars_cons_newline (p : List Char) :
    rstripChars ('\n' :: p) =
      if rstripChars p = [] then [] else '\n' :: rstripChars p := by
  have hrev : ('\n' :: p).reverse = p.reverse ++ ['\n'] := by simp
  rw [rstripChars, hrev, dropWhile_append]
  by_cases hp : p.reverse.dropWhile pyWhitespace = []
  · rw [if_pos hp]
    have h1 : rstripChars p = [] := by rw [rstripChars, hp]; rfl
    rw [if_pos h1]
    decide
  · rw [if_neg hp]
    have h1 : rstripChars p ≠ [] := by
      rw [rstripChars]
      intro hcon
      exact hp (by simpa using congrArg List.reverse hcon)
    rw [if_neg h1]
    simp [rstripChars]

theorem pdfPagesText_cons (k : ℕ) (p : List Char) (rest : List (List Char)) :
    pdfPagesText k (p :: rest) =
      '\n' :: (pageMarker k ++ '\n' :: (p ++ pdfPagesText (k + 1) rest)) := by
  simp [pdfPagesText, pdfBlock, List.append_assoc]

theorem pdfPagesText_append (a b : List (List Char)) :
    ∀ k, pdfPagesText k (a ++ b) = pdfPagesText k a ++ pdfPagesText (k + a.length) b := by
  induction a with
  | nil => intro k; simp [pdfPagesText]
  | cons p a ih =>
    intro k
    have h1 : pdfPagesText k ((p :: a) ++ b) = pdfBlock k p ++ pdfPagesText (k + 1) (a ++ b) := rfl
    have h2 : pdfPagesText k (p :: a) = pdfBlock k p ++ pdfPagesText (k + 1) a := rfl
    rw [h1, h2, ih (k + 1), List.append_assoc, List.length_cons,
      (by omega : k + 1 + a.length = k + (a.length + 1))]

theorem pageMarker_ne_nil (k : ℕ) : pageMarker k ≠ [] := by
  obtain ⟨t, ht⟩ := pageMarker_head k
  rw [ht]
  simp

theorem range_map_marker_succ (n k : ℕ) :
    (List.range (n + 1)).map (fun i => pageMarker (k + i)) =
      pageMarker k :: (List.range n).map (fun i => pageMarker (k + 1 + i)) := by
  rw [List.range_succ_eq_map, List.map_cons, List.map_map]
  refine congrArg₂ _ (by simp) ?_
  refine List.map_congr_left ?_
  intro i _
  simp only [Function.comp]
  congr 1
  omega

theorem filter_marker_eq_nil (ls : List (List Char))
    (h : ∀ l ∈ ls, isMarkerLine l = false) : ls.filter isMarkerLine = [] := by
  induction ls with
  | nil => rfl
  | cons l ls ih =>
    rw [List.filter_cons, h l (List.mem_cons_self _ _)]
    exact ih fun x hx => h x (List.mem_cons_of_mem _ hx)

theorem markerFilter_pdfPagesText :
    ∀ (ps : List (List Char)) (k : ℕ),
      (∀ p ∈ ps, ∀ l ∈ splitLines p, isMarkerLine l = false) →
      (splitLines (pdfPagesText k ps)).filter isMarkerLine =
        (List.range ps.length).map (fun i => pageMarker (k + i)) := by
  intro ps
  induction ps with
  | nil =>
    intro k h
    show (splitLines []).filter isMarkerLine = []
    rw [show splitLines [] = [[]] from rfl]
    simp [isMarkerLine_nil]
  | cons p rest ih =>
    intro k h
    have hp : ∀ l ∈ splitLines p, isMarkerLine l = false :=
      h p (List.mem_cons_self _ _)
    have hrest : ∀ p2 ∈ rest, ∀ l ∈ splitLines p2, isMarkerLine l = false :=
      fun p2 h2 => h p2 (List.mem_cons_of_mem _ h2)
    rw [pdfPagesText_cons, splitLines_cons_newline, splitLines_marker_newline,
      List.length_cons, range_map_marker_succ]
    rw [List.filter_cons, isMarkerLine_nil, List.filter_cons, isMarkerLine_pageMarker]
    simp only [Bool.false_eq_true, if_false, if_true]
    refine congrArg _ ?_
    cases rest with
    | nil =>
      rw [show pdfPagesText (k + 1) ([] : List (List Char)) = [] from rfl,
        List.append_nil]
      rw [filter_marker_eq_nil _ hp]
      simp
    | cons q rs =>
      rw [pdfPagesText_cons]
      rw [show (p ++ '\n' :: (pageMarker (k + 1) ++ '\n' :: (q ++ pdfPagesText (k + 1 + 1) rs))) =
        p ++ '\n' :: (pageMarker (k + 1) ++ '\n' :: (q ++ pdfPagesText (k + 1 + 1) rs)) from rfl]
      rw [splitLines_append_newline, List.filter_append, filter_marker_eq_nil _ hp,
        List.nil_append]
      have hih := ih (k + 1) hrest
      rw [pdfPagesText_cons, splitLines_cons_newline, List.filter_cons,
        isMarkerLine_nil] at hih
      simp only [Bool.false_eq_true, if_false] at hih
      exact hih

theorem lstripChars_pdfPagesText (k : ℕ) (p : List Char) (rest : List (List Char)) :
    lstripChars (pdfPagesText k (p :: rest)) =
      pageMarker k ++ '\n' :: (p ++ pdfPagesText (k + 1) rest) := by
  rw [pdfPagesText_cons, lstripChars]
  obtain ⟨t, hM⟩ := pageMarker_head k
  rw [hM]
  rw [List.dropWhile_cons, if_pos (by decide : pyWhitespace '\n' = true)]
  rw [List.cons_append, List.dropWhile_cons,
    if_neg (by decide : ¬ pyWhitespace '-' = true)]

theorem lstripChars_append_of_ne_nil (a b : List Char)
    (h : lstripChars a ≠ []) : lstripChars (a ++ b) = lstripChars a ++ b := by
  have h2 : List.dropWhile pyWhitespace a ≠ [] := by
    rw [lstripChars] at h
    exact h
  rw [lstripChars, dropWhile_append, if_neg h2, lstripChars]

theorem filter_marker_rstrip_nil (p : List Char)
    (h : ∀ l ∈ splitLines p, isMarkerLine l = false) :
    (splitLines (rstripChars p)).filter isMarkerLine = [] := by
  obtain ⟨t, ht⟩ := rstripChars_prefix_decomp p
  refine filter_marker_eq_nil _ ?_
  refine markerFree_of_prefix (rstripChars p) t ?_
  rw [ht]
  exact h

/-- C8: for every well-formed PDF whose page texts contain no line that
begins like a page-boundary marker, the extracted text contains exactly
one marker line `--- Page k ---` for each page k from 1 to the page
count, and they appear in increasing page order. -/
theorem pdf_one_marker_per_page :
    ∀ pages : List (List Char),
      (∀ p ∈ pages, ∀ l ∈ splitLines p, isMarkerLine l = false) →
      markerLines (extract_text_from_pdf pages) =
        (List.range pages.length).map (fun i => pageMarker (i + 1)) := by
  intro pages hfree
  rcases List.eq_nil_or_concat pages with hnil | ⟨ps, pN, hps⟩
  · subst hnil
    rfl
  · rw [List.concat_eq_append] at hps
    subst hps
    have hfreeN : ∀ l ∈ splitLines pN, isMarkerLine l = false :=
      hfree pN (List.mem_append_right _ (List.mem_singleton.mpr rfl))
    have hfreePs : ∀ p ∈ ps, ∀ l ∈ splitLines p, isMarkerLine l = false :=
      fun p hp => hfree p (List.mem_append_left _ hp)
    have hlenmap : (List.range (ps ++ [pN]).length).map (fun i => pageMarker (i + 1)) =
        (List.range ps.length).map (fun i => pageMarker (i + 1)) ++
          [pageMarker (ps.length + 1)] := by
      rw [List.length_append, List.length_singleton, List.range_succ, List.map_append,
        List.map_singleton]
    rw [hlenmap]
    cases ps with
    | nil =>
      have hS : extract_text_from_pdf ([] ++ [pN]) =
          pageMarker 1 ++ rstripChars ('\n' :: pN) := by
        rw [List.nil_append, extract_text_from_pdf, stripChars, lstripChars_pdfPagesText]
        rw [show pdfPagesText (1 + 1) ([] : List (List Char)) = [] from rfl,
          List.append_nil]
        obtain ⟨u, hu⟩ := pageMarker_last 1
        rw [hu, rstripChars_append_last u '-' (by decide)]
      rw [hS, rstripChars_cons_newline]
      by_cases hR : rstripChars pN = []
      · rw [if_pos hR, List.append_nil, markerLines,
          splitLines_no_newline _ (pageMarker_ne_newline 1), List.filter_cons,
          isMarkerLine_pageMarker, if_pos rfl]
        simp
      · rw [if_neg hR, markerLines, splitLines_marker_newline, List.filter_cons,
          isMarkerLine_pageMarker, if_pos rfl, filter_marker_rstrip_nil pN hfreeN]
        simp
    | cons q ps2 =>
      have hUne : lstripChars (pdfPagesText 1 (q :: ps2)) ≠ [] := by
        rw [lstripChars_pdfPagesText]
        obtain ⟨t, hM⟩ := pageMarker_head 1
        rw [hM]
        simp
      have hlast : pdfPagesText (1 + (q :: ps2).length) [pN] =
          '\n' :: (pageMarker (1 + (q :: ps2).length) ++ '\n' :: pN) := by
        rw [pdfPagesText_cons]
        rw [show pdfPagesText (1 + (q :: ps2).length + 1) ([] : List (List Char)) = []
          from rfl, List.append_nil]
      have hsplit : pdfPagesText 1 ((q :: ps2) ++ [pN]) =
          pdfPagesText 1 (q :: ps2) ++
            ('\n' :: (pageMarker (1 + (q :: ps2).length) ++ '\n' :: pN)) := by
        rw [pdfPagesText_append, hlast]
      have hgroup : (lstripChars (pdfPagesText 1 (q :: ps2)) ++
            '\n' :: pageMarker (1 + (q :: ps2).length)) ++ ('\n' :: pN) =
          lstripChars (pdfPagesText 1 (q :: ps2)) ++
            ('\n' :: (pageMarker (1 + (q :: ps2).length) ++ '\n' :: pN)) := by
        rw [List.append_assoc]
        rfl
      obtain ⟨u, hu⟩ := pageMarker_last (1 + (q :: ps2).length)
      have hB : lstripChars (pdfPagesText 1 (q :: ps2)) ++
            '\n' :: pageMarker (1 + (q :: ps2).length) =
          (lstripChars (pdfPagesText 1 (q :: ps2)) ++ '\n' :: u) ++ ['-'] := by
        rw [hu, List.append_assoc]
        rfl
      have hrs : rstripChars ((lstripChars (pdfPagesText 1 (q :: ps2)) ++
            '\n' :: pageMarker (1 + (q :: ps2).length)) ++ ('\n' :: pN)) =
          (lstripChars (pdfPagesText 1 (q :: ps2)) ++
            '\n' :: pageMarker (1 + (q :: ps2).length)) ++ rstripChars ('\n' :: pN) := by
        rw [hB, rstripChars_append_last _ '-' (by decide)]
      have hSL : splitLines (lstripChars (pdfPagesText 1 (q :: ps2)) ++
            '\n' :: pageMarker (1 + (q :: ps2).length)) =
          splitLines (lstripChars (pdfPagesText 1 (q :: ps2))) ++
            [pageMarker (1 + (q :: ps2).length)] := by
        rw [splitLines_append_newline,
          splitLines_no_newline _ (pageMarker_ne_newline _)]
      have hLUfilter : (splitLines (lstripChars (pdfPagesText 1 (q :: ps2)))).filter
            isMarkerLine =
          (List.range (q :: ps2).length).map (fun i => pageMarker (1 + i)) := by
        have hfull := markerFilter_pdfPagesText (q :: ps2) 1 hfreePs
        have hshape : pdfPagesText 1 (q :: ps2) =
            '\n' :: lstripChars (pdfPagesText 1 (q :: ps2)) := by
          rw [lstripChars_pdfPagesText]
          exact pdfPagesText_cons 1 q ps2
        rw [hshape, splitLines_cons_newline, List.filter_cons, isMarkerLine_nil] at hfull
        simpa using hfull
      have hmapeq : (List.range (q :: ps2).length).map (fun i => pageMarker (1 + i)) =
          (List.range (q :: ps2).length).map (fun i => pageMarker (i + 1)) := by
        refine List.map_congr_left ?_
        intro i _
        congr 1
        omega
      have hMeq : pageMarker (1 + (q :: ps2).length) =
          pageMarker ((q :: ps2).length + 1) := by
        congr 1
        omega
      rw [extract_text_from_pdf, stripChars, hsplit,
        lstripChars_append_of_ne_nil _ _ hUne, ← hgroup, hrs,
        rstripChars_cons_newline]
      by_cases hR : rstripChars pN = []
      · rw [if_pos hR, List.append_nil, markerLines, hSL, List.filter_append,
          hLUfilter, hmapeq, hMeq]
        rw [show ([pageMarker ((q :: ps2).length + 1)].filter isMarkerLine) =
          [pageMarker ((q :: ps2).length + 1)] by
            rw [List.filter_cons, isMarkerLine_pageMarker, if_pos rfl]
            rfl]
      · rw [if_neg hR, markerLines, splitLines_append_newline, hSL,
          List.filter_append, List.filter_append, hLUfilter,
          filter_marker_rstrip_nil pN hfreeN, List.append_nil, hmapeq, hMeq]
        rw [show ([pageMarker ((q :: ps2).length + 1)].filter isMarkerLine) =
          [pageMarker ((q :: ps2).length + 1)] by
            rw [List.filter_cons, isMarkerLine_pageMarker, if_pos rfl]
            rfl]

/-- Witness for `pdf_one_marker_per_page` on a concrete two-page PDF. -/
theorem pdf_one_marker_per_page_witness :
    markerLines (extract_text_from_pdf [['h', 'i'], ['x', '\n', 'y']]) =
      (List.range ([['h', 'i'], ['x', '\n', 'y']] : List (List Char)).length).map
        (fun i => pageMarker (i + 1)) :=
  pdf_one_marker_per_page [['h', 'i'], ['x', '\n', 'y']] (by decide)

/-- C9 counterexample: a one-page PDF with no extractable text does not
yield the empty string — the page marker itself survives the strip. -/
theorem pdf_no_text_not_empty :
    extract_text_from_pdf [[]] = pageMarker 1 ∧ extract_text_from_pdf [[]] ≠ [] := by
  have h1 : extract_text_from_pdf [[]] = pageMarker 1 := by
    rw [extract_text_from_pdf, stripChars, lstripChars_pdfPagesText]
    rw [show pdfPagesText (1 + 1) ([] : List (List Char)) = [] from rfl]
    rw [List.nil_append]
    obtain ⟨u, hu⟩ := pageMarker_last 1
    rw [hu]
    rw [show (u ++ ['-']) ++ '\n' :: ([] : List Char) = (u ++ ['-']) ++ ['\n'] from rfl]
    rw [rstripChars_append_last u '-' (by decide)]
    rw [show rstripChars ['\n'] = [] from rfl, List.append_nil]
  exact ⟨h1, by rw [h1]; exact pageMarker_ne_nil 1⟩

/-- What the extraction actually returns for a document with no
extractable text: the page markers alone, consecutive markers separated
by a blank line. -/
def markersOnly : ℕ → ℕ → List Char
  | _, 0 => []
  | k, 1 => pageMarker k
  | k, (n + 2) => pageMarker k ++ '\n' :: '\n' :: markersOnly (k + 1) (n + 1)

theorem markersOnly_ne_nil (k n : ℕ) : markersOnly k (n + 1) ≠ [] := by
  cases n with
  | zero => exact pageMarker_ne_nil k
  | succ m =>
    rw [markersOnly]
    obtain ⟨t, ht⟩ := pageMarker_head k
    rw [ht]
    simp

theorem pdfPagesText_shape (k : ℕ) (p : List Char) (rest : List (List Char)) :
    pdfPagesText k (p :: rest) = '\n' :: lstripChars (pdfPagesText k (p :: rest)) := by
  rw [lstripChars_pdfPagesText]
  exact pdfPagesText_cons k p rest

theorem strip_pdf_replicate :
    ∀ n k : ℕ, stripChars (pdfPagesText k (List.replicate n [])) = markersOnly k n := by
  intro n
  induction n with
  | zero => intro k; rfl
  | succ m ih =>
    intro k
    cases m with
    | zero =>
      rw [show List.replicate 1 ([] : List Char) = [[]] from rfl]
      rw [stripChars, lstripChars_pdfPagesText]
      rw [show pdfPagesText (k + 1) ([] : List (List Char)) = [] from rfl]
      rw [List.nil_append]
      obtain ⟨u, hu⟩ := pageMarker_last k
      rw [hu]
      rw [show (u ++ ['-']) ++ '\n' :: ([] : List Char) = (u ++ ['-']) ++ ['\n'] from rfl]
      rw [rstripChars_append_last u '-' (by decide)]
      rw [show rstripChars ['\n'] = [] from rfl, List.append_nil, markersOnly, hu]
    | succ m2 =>
      have hrep : List.replicate (m2 + 1 + 1) ([] : List Char) =
          [] :: List.replicate (m2 + 1) [] := rfl
      rw [hrep, stripChars, lstripChars_pdfPagesText, List.nil_append]
      have hIH := ih (k + 1)
      rw [stripChars] at hIH
      have hne : rstripChars (lstripChars (pdfPagesText (k + 1)
          (List.replicate (m2 + 1) []))) ≠ [] := by
        rw [hIH]
        exact markersOnly_ne_nil (k + 1) m2
      have hsh : pdfPagesText (k + 1) (List.replicate (m2 + 1) []) =
          '\n' :: lstripChars (pdfPagesText (k + 1) (List.replicate (m2 + 1) [])) := by
        rw [show List.replicate (m2 + 1) ([] : List Char) = [] :: List.replicate m2 []
          from rfl]
        exact pdfPagesText_shape (k + 1) [] (List.replicate m2 [])
      conv_lhs => rw [hsh]
      have hgr : pageMarker k ++ '\n' :: '\n' ::
            lstripChars (pdfPagesText (k + 1) (List.replicate (m2 + 1) [])) =
          (pageMarker k ++ ['\n', '\n']) ++
            lstripChars (pdfPagesText (k + 1) (List.replicate (m2 + 1) [])) := by
        rw [List.append_assoc]
        rfl
      rw [hgr, rstripChars_append_of_ne_nil _ _ hne, markersOnly, hIH,
        List.append_assoc]
      rfl

/-- C9 amended: for a PDF from which no text is extractable (every page's
extracted text is empty), `extract_text_from_pdf` raises no error and
returns the page markers alone — blank-line-separated — which is the
empty string exactly when the document has zero pages. -/
theorem pdf_no_text_markers_only :
    ∀ pages : List (List Char), (∀ p ∈ pages, p = []) →
      extract_text_from_pdf pages = markersOnly 1 pages.length
      ∧ (extract_text_from_pdf pages = [] ↔ pages = []) := by
  intro pages h
  have hrep : pages = List.replicate pages.length [] :=
    List.eq_replicate_length.mpr h
  have hmain : extract_text_from_pdf pages = markersOnly 1 pages.length := by
    rw [extract_text_from_pdf]
    conv_lhs => rw [hrep]
    exact strip_pdf_replicate pages.length 1
  refine ⟨hmain, ?_, ?_⟩
  · intro he
    by_contra hne
    have hlen : pages.length ≠ 0 := fun h0 => hne (List.length_eq_zero.mp h0)
    obtain ⟨m, hm⟩ := Nat.exists_eq_succ_of_ne_zero hlen
    rw [hmain, hm] at he
    exact markersOnly_ne_nil 1 m he
  · intro he
    subst he
    rfl

/-- Witness for `pdf_no_text_markers_only` on a two-page PDF with empty
page texts. -/
theorem pdf_no_text_markers_only_witness :
    extract_text_from_pdf [[], []] = markersOnly 1 ([[], []] : List (List Char)).length
    ∧ (extract_text_from_pdf [[], []] = [] ↔ ([[], []] : List (List Char)) = []) :=
  pdf_no_text_markers_only [[], []] (by decide)

/-- A row of the `messages` table (the columns the title trigger reads). -/
structure DbMessage where
  id : ℕ
  conversation_id : ℕ
  role : String
  content : String
deriving DecidableEq

/-- A row of the `conversations` table (the columns the title trigger
touches). -/
structure DbConversation where
  id : ℕ
  title : String
deriving DecidableEq

/-- The `auto_generate_conversation_title` trigger function, embedded from
src/GPT/database/functions.sql:83-122: run AFTER INSERT on `messages` with
the freshly inserted row `new` (so `msgs` is the table including `new`),
it does nothing when some other message of the same conversation exists;
otherwise, when the new row's role is `user`, it takes the first 50
characters of the content, appends `...` when the content is longer than
50 characters, and writes that title to the conversation — but only on
rows whose title is still the default `New Conversation`. -/
def auto_generate_conversation_title (msgs : List DbMessage)
    (convs : List DbConversation) (new : DbMessage) : List DbConversation :=
  if msgs.any fun m => m.conversation_id == new.conversation_id && m.id != new.id then
    convs
  else if new.role = "user" then
    let first_message := new.content.take 50
    let generated_title :=
      if new.content.length > 50 then first_message ++ "..." else first_message
    convs.map fun c =>
      if c.id = new.conversation_id ∧ c.title = "New Conversation" then
        { c with title := generated_title }
      else c
  else convs

/-- Inserting a message row: append it to the `messages` table, then run
the AFTER INSERT trigger on the updated table. -/
def insert_message (msgs : List DbMessage) (convs : List DbConversation)
    (new : DbMessage) : List DbMessage × List DbConversation :=
  (msgs ++ [new], auto_generate_conversation_title (msgs ++ [new]) convs new)

/-- C10: inserting the first message of a conversation with role `user`
rewrites the conversation's title to the first 50 characters of the
content, with `...` appended exactly when the content exceeds 50
characters, and only on conversations still holding the default title
`New Conversation` (all other rows unchanged); inserting a message that
is not the conversation's first never changes any title.  The `id`
freshness hypothesis reflects the primary-key uniqueness of the table. -/
theorem auto_title_spec :
    ∀ (msgs : List DbMessage) (convs : List DbConversation) (new : DbMessage),
      (∀ m ∈ msgs, m.id ≠ new.id) →
      ((∀ m ∈ msgs, m.conversation_id ≠ new.conversation_id) → new.role = "user" →
        (insert_message msgs convs new).2 =
          convs.map fun c =>
            if c.id = new.conversation_id ∧ c.title = "New Conversation" then
              { c with title := new.content.take 50 ++
                  (if new.content.length > 50 then "..." else "") }
            else c)
      ∧ ((∃ m ∈ msgs, m.conversation_id = new.conversation_id) →
          (insert_message msgs convs new).2 = convs) := by
  intro msgs convs new hfresh
  constructor
  · intro hconv hrole
    have hany : ((msgs ++ [new]).any fun m =>
        m.conversation_id == new.conversation_id && m.id != new.id) = false := by
      rw [List.any_eq_false]
      intro m hm
      rcases List.mem_append.mp hm with h1 | h1
      · simp [hconv m h1]
      · have : m = new := List.mem_singleton.mp h1
        subst this
        simp
    rw [insert_message]
    dsimp only
    rw [auto_generate_conversation_title, if_neg (by rw [hany]; exact Bool.false_ne_true),
      if_pos hrole]
    dsimp only
    refine List.map_congr_left ?_
    intro c _
    by_cases hc : c.id = new.conversation_id ∧ c.title = "New Conversation"
    · rw [if_pos hc, if_pos hc]
      by_cases hlen : new.content.length > 50
      · rw [if_pos hlen, if_pos hlen]
      · rw [if_neg hlen, if_neg hlen, String.append_empty]
    · rw [if_neg hc, if_neg hc]
  · rintro ⟨m, hm, hmc⟩
    have hany : ((msgs ++ [new]).any fun m =>
        m.conversation_id == new.conversation_id && m.id != new.id) = true := by
      rw [List.any_eq_true]
      refine ⟨m, List.mem_append_left _ hm, ?_⟩
      simp [hmc, hfresh m hm]
    rw [insert_message]
    dsimp only
    rw [auto_generate_conversation_title, if_pos (by rw [hany])]

/-- Witness for `auto_title_spec`: the first user message of conversation
7 renames it from the default title. -/
theorem auto_title_spec_witness :
    (insert_message [] [{ id := 7, title := "New Conversation" }]
        { id := 1, conversation_id := 7, role := "user", content := "Hello" }).2 =
      [{ id := 7, title := "New Conversation" }].map fun c =>
        if c.id = 7 ∧ c.title = "New Conversation" then
          { c with title := ("Hello" : String).take 50 ++
              (if ("Hello" : String).length > 50 then "..." else "") }
        else c :=
  (auto_title_spec [] [{ id := 7, title := "New Conversation" }]
      { id := 1, conversation_id := 7, role := "user", content := "Hello" }
      (by simp)).1 (by simp) rfl
